import Mathlib

set_option maxHeartbeats 1000000
set_option maxRecDepth 4000

namespace Freycoin

/-!
Shallow embedding of `contrib/testgen/gen_key_io_test_vectors.py`.

Byte strings are `List Nat` (each entry below 256 at every draw site) and
encoded vectors are `List Char`.  The pseudo-random source is modelled as an
explicit stream `g : Nat → Nat`; `rand_bytes` reduces each draw modulo 256,
exactly the range of Python's `random.getrandbits(8)`.

The bech32 codec (`test_framework/segwit_addr.py`) and the script opcode
constants (`test_framework/script.py`) are imported by the generator but are
not part of the sources under verification; they are modelled from the spec
(sections 3, 6 and 8), as marked on each such definition.
-/

/-- Most-significant-bit-first list of the low `w` bits of `v`. -/
def natToBits : Nat → Nat → List Bool
  | 0, _ => []
  | w + 1, v => v.testBit w :: natToBits w v

/-- Interpret a most-significant-bit-first bit list as a natural number. -/
def bitsToNat (l : List Bool) : Nat :=
  l.foldl (fun a b => 2 * a + (if b then 1 else 0)) 0

/-- Split a list into consecutive chunks of length `n`; the final chunk may be
shorter when `n` does not divide the length. -/
def chunks (n : Nat) : List α → List (List α)
  | [] => []
  | x :: xs =>
    if _h : n = 0 then []
    else (x :: xs).take n :: chunks n ((x :: xs).drop n)
termination_by l => l.length
decreasing_by
  simp only [List.length_drop, List.length_cons]
  omega

/-- Structural worker for chunk splitting: `acc` is the reversed current
partial chunk and `k` the free slots left in it.  Recursion is structural on
the input list, so the kernel can evaluate it. -/
def chunksGo (n : Nat) : List α → List α → Nat → List (List α)
  | [], acc, _ =>
    match acc with
    | [] => []
    | _ :: _ => [acc.reverse]
  | x :: xs, acc, k =>
    match k with
    | 0 => []
    | k' + 1 =>
      if k' = 0 then (x :: acc).reverse :: chunksGo n xs [] n
      else chunksGo n xs (x :: acc) k'

/-- Executable chunk splitting, equal to `chunks` for positive `n`. -/
def chunksE (n : Nat) (l : List α) : List (List α) := chunksGo n l [] n

/-- Modelled from the spec: `convert_bits` of the external bech32 codec
(spec section 6).  Regroups a sequence of `frombits`-wide values into
`tobits`-wide values; with `pad` the tail is zero-padded, without `pad` the
conversion fails when a full input symbol is left over or the padding bits
are not all zero.  Input values are taken modulo `2 ^ frombits`; every call
site draws values already in range. -/
def convertbits (data : List Nat) (frombits tobits : Nat) (pad : Bool) : Option (List Nat) :=
  let bits := data.flatMap (natToBits frombits)
  let r := bits.length % tobits
  if pad then
    some ((chunksE tobits (bits ++ List.replicate ((tobits - r) % tobits) false)).map bitsToNat)
  else if frombits ≤ r ∨ (bits.drop (bits.length - r)).any id then none
  else some ((chunksE tobits (bits.take (bits.length - r))).map bitsToNat)

/-- Modelled from the spec: the two checksum variants of the external codec. -/
inductive Encoding where
  | BECH32
  | BECH32M
deriving DecidableEq

/-- Modelled from the spec: the fixed 32-character bech32 alphabet. -/
def CHARSET : List Char :=
  ['q','p','z','r','y','9','x','8','g','f','2','t','v','d','w','0',
   's','3','j','n','5','4','k','h','c','e','6','m','u','a','7','l']

/-- Modelled from the spec: generator constants of the bech32 checksum. -/
def GEN : List Nat := [0x3b6a57b2, 0x26508e6d, 0x1ea119fa, 0x3d4233dd, 0x2a1462b3]

/-- Modelled from the spec: one step of the bech32 checksum polynomial. -/
def polymodStep (chk v : Nat) : Nat :=
  let b := chk >>> 25
  let c := ((chk &&& 0x1ffffff) <<< 5) ^^^ v
  (List.range 5).foldl (fun acc i => if b.testBit i then acc ^^^ GEN.getD i 0 else acc) c

/-- Modelled from the spec: the bech32 checksum polynomial. -/
def bech32_polymod (values : List Nat) : Nat :=
  values.foldl polymodStep 1

/-- Modelled from the spec: expansion of the human-readable part. -/
def bech32_hrp_expand (hrp : List Char) : List Nat :=
  hrp.map (fun c => c.toNat >>> 5) ++ [0] ++ hrp.map (fun c => c.toNat &&& 31)

/-- Modelled from the spec: the constant distinguishing the two variants. -/
def encConst : Encoding → Nat
  | .BECH32 => 1
  | .BECH32M => 0x2bc830a3

/-- Modelled from the spec: the six 5-bit checksum symbols for `data`. -/
def bech32_create_checksum (enc : Encoding) (hrp : List Char) (data : List Nat) : List Nat :=
  let values := bech32_hrp_expand hrp ++ data
  let pm := bech32_polymod (values ++ [0, 0, 0, 0, 0, 0]) ^^^ encConst enc
  (List.range 6).map (fun i => pm >>> (5 * (5 - i)) &&& 31)

/-- Modelled from the spec: checksum verification.  The spec requires decode
to reject mismatched checksums; verification is modelled as recomputing the
checksum of the leading symbols and comparing it with the trailing six
symbols, which for the linear bech32 code is extensionally the reference
polymod test, and reports which variant matched. -/
def bech32_verify_checksum (hrp : List Char) (data : List Nat) : Option Encoding :=
  if 6 ≤ data.length ∧
      data.drop (data.length - 6) =
        bech32_create_checksum .BECH32M hrp (data.take (data.length - 6)) then
    some .BECH32M
  else if 6 ≤ data.length ∧
      data.drop (data.length - 6) =
        bech32_create_checksum .BECH32 hrp (data.take (data.length - 6)) then
    some .BECH32
  else none

/-- Modelled from the spec: `encode` of the external codec — the
human-readable part, the separator `1`, then the data and checksum symbols
spelled in the fixed alphabet. -/
def bech32_encode (enc : Encoding) (hrp : List Char) (data : List Nat) : List Char :=
  let combined := data ++ bech32_create_checksum enc hrp data
  hrp ++ '1' :: combined.map (fun d => CHARSET.getD d 'q')

/-- Position of the last `1` in a character list, if any. -/
def rfind1 : List Char → Option Nat
  | [] => none
  | c :: cs =>
    match rfind1 cs with
    | some i => some (i + 1)
    | none => if c = '1' then some 0 else none

/-- Modelled from the spec: structural bech32 decoding — character range and
mixed-case rejection, locating the separator, translating the data symbols
through the alphabet and verifying the checksum. -/
def bech32_decode (bech : List Char) : Option (List Char × List Nat × Encoding) :=
  if bech.any (fun c => decide (c.toNat < 33) || decide (126 < c.toNat)) then none
  else if bech.map Char.toLower ≠ bech ∧ bech.map Char.toUpper ≠ bech then none
  else
    let b := bech.map Char.toLower
    (rfind1 b).bind (fun pos =>
      if pos < 1 ∨ b.length < pos + 7 ∨ 90 < b.length then none
      else if ¬ (b.drop (pos + 1)).all (fun c => decide (c ∈ CHARSET)) then none
      else
        let data := (b.drop (pos + 1)).map (fun c => List.indexOf c CHARSET)
        (bech32_verify_checksum (b.take pos) data).map (fun enc =>
          (b.take pos, data.take (data.length - 6), enc)))

/-- Modelled from the spec: `decode` of the external codec for one expected
human-readable part.  Rejects a wrong or missing human-readable part,
witness programs outside 2..40 bytes, version-0 programs that are not 20 or
32 bytes, versions above 16, and any checksum variant other than Bech32m
(this repository encodes every witness version with Bech32m, as the valid
template registry and spec section 8 show). -/
def decode_segwit_address (hrp : List Char) (addr : List Char) : Option (Nat × List Nat) :=
  (bech32_decode addr).bind (fun res =>
    if res.1 ≠ hrp then none
    else
      (convertbits (res.2.1.drop 1) 5 8 false).bind (fun decoded =>
        if decoded.length < 2 ∨ 40 < decoded.length then none
        else if 16 < res.2.1.headD 0 then none
        else if res.2.1.headD 0 = 0 ∧ decoded.length ≠ 20 ∧ decoded.length ≠ 32 then none
        else if res.2.2 ≠ Encoding.BECH32M then none
        else some (res.2.1.headD 0, decoded)))

/-- Modelled from the spec: script opcode byte values from
`test_framework/script.py`; section 4.1's literal hex patterns
(`76a914…88ac`, `a914…87`) pin them down. -/
def OP_0 : Nat := 0x00

def OP_1 : Nat := 0x51

def OP_2 : Nat := 0x52

def OP_3 : Nat := 0x53

def OP_16 : Nat := 0x60

def OP_DUP : Nat := 0x76

def OP_EQUAL : Nat := 0x87

def OP_EQUALVERIFY : Nat := 0x88

def OP_HASH160 : Nat := 0xa9

def OP_CHECKSIG : Nat := 0xac

/-- The `pubkey_prefix` script fragment of the source. -/
def pubkeyPre : List Nat := [OP_DUP, OP_HASH160, 20]

/-- The `pubkey_suffix` script fragment of the source. -/
def pubkeySuf : List Nat := [OP_EQUALVERIFY, OP_CHECKSIG]

/-- The `script_prefix` script fragment of the source. -/
def scriptPre : List Nat := [OP_HASH160, 20]

/-- The `script_suffix` script fragment of the source. -/
def scriptSuf : List Nat := [OP_EQUAL]

/-- The `p2wpkh_prefix` script fragment of the source. -/
def p2wpkhPre : List Nat := [OP_0, 20]

/-- The `p2wsh_prefix` script fragment of the source. -/
def p2wshPre : List Nat := [OP_0, 32]

/-- The `p2tr_prefix` script fragment of the source. -/
def p2trPre : List Nat := [OP_1, 32]

/-- The metadata tuple carried by a template; `none` fields are the Python
`None` entries, dropped when the yielded metadata mapping is formed. -/
structure VecMeta where
  isPrivkey : Option Bool
  chain : Option (List Char)
  isCompressed : Option Bool
  tryCaseFlip : Option Bool
deriving DecidableEq

/-- A legacy template row: literal string header, payload size, literal
string trailer, metadata, output script head and tail. -/
structure LegacyTemplate where
  tplPre : List Char
  payloadSize : Nat
  tplSuf : List Nat
  meta : VecMeta
  outPre : List Nat
  outSuf : List Nat
deriving DecidableEq

/-- A valid bech32 template row. -/
structure Bech32Template where
  hrp : List Char
  witver : Nat
  witprogSize : Nat
  meta : VecMeta
  enc : Encoding
  outPre : List Nat
deriving DecidableEq

/-- An invalid bech32 template row with its three fault flags. -/
structure Bech32NgTemplate where
  hrp : List Char
  witver : Nat
  witprogSize : Nat
  enc : Encoding
  invalidBech32 : Bool
  invalidChecksum : Bool
  invalidChar : Bool
deriving DecidableEq

/-- The human-readable part `ric`. -/
def ricL : List Char := ['r','i','c']

/-- The human-readable part `tric`. -/
def tricL : List Char := ['t','r','i','c']

/-- The human-readable part `rric`. -/
def rricL : List Char := ['r','r','i','c']

/-- The chain name `main`. -/
def mainC : List Char := ['m','a','i','n']

/-- The chain name `test`. -/
def testC : List Char := ['t','e','s','t']

/-- The chain name `regtest`. -/
def regtestC : List Char := ['r','e','g','t','e','s','t']

/-- The `templates` registry of the source (legacy templates). -/
def templates : List LegacyTemplate :=
  [ ⟨[], 20, [], ⟨some false, some mainC, none, none⟩, pubkeyPre, pubkeySuf⟩,
    ⟨[], 20, [], ⟨some false, some mainC, none, none⟩, scriptPre, scriptSuf⟩,
    ⟨['p','r','v'], 32, [], ⟨some true, some mainC, some true, none⟩, [], []⟩ ]

/-- The `bech32_templates` registry of the source. -/
def bech32_templates : List Bech32Template :=
  [ ⟨ricL, 0, 20, ⟨some false, some mainC, none, some true⟩, .BECH32M, p2wpkhPre⟩,
    ⟨ricL, 0, 32, ⟨some false, some mainC, none, some true⟩, .BECH32M, p2wshPre⟩,
    ⟨ricL, 1, 32, ⟨some false, some mainC, none, some true⟩, .BECH32M, p2trPre⟩,
    ⟨ricL, 2, 2, ⟨some false, some mainC, none, some true⟩, .BECH32M, [OP_2, 2]⟩,
    ⟨tricL, 0, 20, ⟨some false, some testC, none, some true⟩, .BECH32M, p2wpkhPre⟩,
    ⟨tricL, 0, 32, ⟨some false, some testC, none, some true⟩, .BECH32M, p2wshPre⟩,
    ⟨tricL, 1, 32, ⟨some false, some testC, none, some true⟩, .BECH32M, p2trPre⟩,
    ⟨tricL, 3, 16, ⟨some false, some testC, none, some true⟩, .BECH32M, [OP_3, 16]⟩,
    ⟨rricL, 0, 20, ⟨some false, some regtestC, none, some true⟩, .BECH32M, p2wpkhPre⟩,
    ⟨rricL, 0, 32, ⟨some false, some regtestC, none, some true⟩, .BECH32M, p2wshPre⟩,
    ⟨rricL, 1, 32, ⟨some false, some regtestC, none, some true⟩, .BECH32M, p2trPre⟩,
    ⟨rricL, 16, 40, ⟨some false, some regtestC, none, some true⟩, .BECH32M, [OP_16, 40]⟩ ]

/-- The `bech32_ng_templates` registry of the source. -/
def bech32_ng_templates : List Bech32NgTemplate :=
  [ ⟨['t','c'], 0, 20, .BECH32M, false, false, false⟩,
    ⟨['b','t'], 1, 32, .BECH32M, false, false, false⟩,
    ⟨tricL, 17, 32, .BECH32M, false, false, false⟩,
    ⟨rricL, 3, 1, .BECH32M, false, false, false⟩,
    ⟨ricL, 15, 41, .BECH32M, false, false, false⟩,
    ⟨tricL, 0, 16, .BECH32M, false, false, false⟩,
    ⟨rricL, 0, 32, .BECH32M, true, false, false⟩,
    ⟨ricL, 0, 16, .BECH32M, true, false, false⟩,
    ⟨tricL, 0, 32, .BECH32M, false, true, false⟩,
    ⟨rricL, 0, 20, .BECH32M, false, false, true⟩,
    ⟨ricL, 0, 20, .BECH32M, false, false, false⟩,
    ⟨tricL, 0, 32, .BECH32M, false, false, false⟩,
    ⟨rricL, 0, 20, .BECH32M, false, false, false⟩,
    ⟨ricL, 1, 32, .BECH32M, false, false, false⟩,
    ⟨tricL, 2, 16, .BECH32M, false, false, false⟩,
    ⟨rricL, 16, 20, .BECH32M, false, false, false⟩ ]

/-- Two-character lowercase hex spelling of one byte, as Python's
`bytearray.hex` produces per byte; `Nat.digitChar` yields the lowercase
hexadecimal digit of a value below 16. -/
def byteHex (b : Nat) : List Char :=
  [Nat.digitChar (b / 16 % 16), Nat.digitChar (b % 16)]

/-- Lowercase hex spelling of a byte string. -/
def bytesHex (bs : List Nat) : List Char := bs.flatMap byteHex

/-- `is_valid_bech32` of the source: try the decoder with each of the three
known human-readable parts. -/
def is_valid_bech32 (v : List Char) : Bool :=
  [ricL, tricL, rricL].any (fun h => decide (decode_segwit_address h v ≠ none))

/-- `is_valid` of the source: the length-67 private-key check (an immediate
return), the two fixed legacy script layouts, then bech32 delegation. -/
def is_valid (v : List Char) : Bool :=
  if v.length = 67 then decide (v.take 3 = ['p','r','v'])
  else if v.length = 46 ∧ v.take 4 = ['a','9','1','4'] ∧ v.drop 44 = ['8','7'] then true
  else if v.length = 50 ∧ v.take 6 = ['7','6','a','9','1','4'] ∧ v.drop 46 = ['8','8','a','c'] then true
  else is_valid_bech32 v

/-- `rand_bytes` of the source: `size` bytes from the draw stream starting
at `pos`; each draw is an 8-bit value, as `random.getrandbits(8)` returns. -/
def rand_bytes (g : Nat → Nat) (pos size : Nat) : List Nat :=
  (List.range size).map (fun i => g (pos + i) % 256)

/-- `gen_valid_legacy_vector` of the source, with the drawn payload bytes
made explicit. -/
def gen_valid_legacy_vector (t : LegacyTemplate) (payload : List Nat) :
    List Char × List Nat :=
  (t.tplPre ++ bytesHex t.outPre ++ bytesHex payload ++ bytesHex t.outSuf,
   t.outPre ++ payload ++ t.outSuf)

/-- `gen_valid_bech32_vector` of the source, with the drawn witness program
bytes made explicit. -/
def gen_valid_bech32_vector (t : Bech32Template) (witprog : List Nat) :
    List Char × List Nat :=
  (bech32_encode t.enc t.hrp (t.witver :: (convertbits witprog 8 5 true).getD []),
   t.outPre ++ witprog)

/-- A valid template of either family, in round-robin order. -/
inductive AnyTpl where
  | leg (t : LegacyTemplate)
  | b32 (t : Bech32Template)
deriving DecidableEq

/-- The fixed round-robin order of `gen_valid_vectors`: the three legacy
templates then the twelve bech32 templates. -/
def all_templates : List AnyTpl :=
  templates.map AnyTpl.leg ++ bech32_templates.map AnyTpl.b32

/-- Number of random bytes one template consumes. -/
def tplDraws : AnyTpl → Nat
  | .leg t => t.payloadSize
  | .b32 t => t.witprogSize

/-- One triple of the valid stream: encoded string, payload hex, metadata. -/
def genAny (g : Nat → Nat) (pos : Nat) : AnyTpl → List Char × List Char × VecMeta
  | .leg t =>
    let rv := gen_valid_legacy_vector t (rand_bytes g pos t.payloadSize)
    (rv.1, bytesHex rv.2, t.meta)
  | .b32 t =>
    let rv := gen_valid_bech32_vector t (rand_bytes g pos t.witprogSize)
    (rv.1, bytesHex rv.2, t.meta)

/-- Random bytes consumed by one full round-robin cycle. -/
def cycleDraws : Nat := (all_templates.map tplDraws).sum

/-- Stream position of the first draw of the `k`-th vector: completed cycles
plus the sizes of the templates already served in the current cycle. -/
def drawPos (k : Nat) : Nat :=
  (k / all_templates.length) * cycleDraws +
    ((all_templates.take (k % all_templates.length)).map tplDraws).sum

/-- The `k`-th element of the valid stream. -/
def validVector (g : Nat → Nat) (k : Nat) : List Char × List Char × VecMeta :=
  genAny g (drawPos k)
    (all_templates.getD (k % all_templates.length)
      (AnyTpl.leg ⟨[], 0, [], ⟨none, none, none, none⟩, [], []⟩))

/-- `gen_valid_vectors` of the source: the first `count` elements of the
infinite round-robin valid stream driven by the draw stream `g`. -/
def gen_valid_vectors (g : Nat → Nat) (count : Nat) :
    List (List Char × List Char × VecMeta) :=
  (List.range count).map (validVector g)

/-- The optional single-character line corruption of
`gen_invalid_legacy_vector`: append one hex character, or write one hex
character at position `n` (the position is drawn from `0..len(val)`
inclusive). -/
inductive LineCorruption where
  | addEnd (c : Char)
  | replaceAt (n : Nat) (c : Char)
deriving DecidableEq

/-- Payload size drawn by `gen_invalid_legacy_vector`: the template's size,
or `max(int(expovariate(0.5)), 50)` when the randomize axis fired;
`expoDraw` is the truncated exponential draw. -/
def invalidPayloadSize (t : LegacyTemplate) (randomizeSize : Bool) (expoDraw : Nat) : Nat :=
  if randomizeSize then max expoDraw 50 else t.payloadSize

/-- `gen_invalid_legacy_vector` of the source, with the three corruption
flags, the exponential draw, the three byte-draw streams and the optional
line corruption made explicit.  The uncorrupted trailer spells
`template[4]` — the output script head — exactly as the source line
`suffix = bytearray(template[4]).hex()` does. -/
def gen_invalid_legacy_vector (t : LegacyTemplate) (corruptPre randomizeSize corruptSuf : Bool)
    (expoDraw : Nat) (gPre gPay gSuf : Nat → Nat) (lc : Option LineCorruption) : List Char :=
  let pre := if corruptPre then bytesHex (rand_bytes gPre 0 t.tplPre.length)
             else t.tplPre ++ bytesHex t.outPre
  let payload := rand_bytes gPay 0 (invalidPayloadSize t randomizeSize expoDraw)
  let suf := if corruptSuf then bytesHex (rand_bytes gSuf 0 t.tplSuf.length)
             else bytesHex t.outPre
  let val := pre ++ bytesHex payload ++ suf
  match lc with
  | none => val
  | some (.addEnd c) => val ++ [c]
  | some (.replaceAt n c) => val.take n ++ c :: val.drop (n + 1)

/-- The symbol list `gen_invalid_bech32_vector` builds in its data branch:
`[version] + convertbits(program)`, with the last symbol's low bit set when
the checksum-forcing flag fires and the program size is 2 or 4 modulo 5,
and an extra zero symbol appended when the flag fires otherwise. -/
def invalidBech32Data (t : Bech32NgTemplate) (witprog : List Nat) : List Nat :=
  let data := t.witver :: (convertbits witprog 8 5 true).getD []
  if t.invalidBech32 then
    if t.witprogSize % 5 = 2 ∨ t.witprogSize % 5 = 4 then
      data.dropLast ++ [data.getLastD 0 ||| 1]
    else data ++ [0]
  else data

/-- ASCII case swap of one character, as Python's `str.swapcase` acts on the
characters these vectors contain. -/
def swapcaseChar (c : Char) : Char :=
  if c.isLower then c.toUpper else if c.isUpper then c.toLower else c

/-- `gen_invalid_bech32_vector` of the source, with the two probability
flags, the drawn witness program, the checksum-corruption offset and
replacement character, and the case-corruption offset made explicit. -/
def gen_invalid_bech32_vector (t : Bech32NgTemplate) (noData toUpper : Bool)
    (witprog : List Nat) (ckOff : Nat) (ckChar : Char) (charOff : Nat) : List Char :=
  let rv := if noData then bech32_encode t.enc t.hrp []
            else bech32_encode t.enc t.hrp (invalidBech32Data t witprog)
  let rv1 := if t.invalidChecksum then
               let i := rv.length - ckOff
               rv.take i ++ ckChar :: rv.drop (i + 1)
             else rv
  let rv2 := if t.invalidChar then
               let i := t.hrp.length + 1 + charOff
               rv1.take i ++ ((rv1.drop i).take 4).map Char.toUpper ++ rv1.drop (i + 4)
             else rv1
  if toUpper then rv2.map swapcaseChar else rv2

/-- `gen_invalid_vectors` of the source: the two fixed edge cases, then the
round-robin corruption outputs — abstracted here as an arbitrary candidate
sequence, since the driver yields a candidate only after `is_valid`
rejects it. -/
def gen_invalid_vectors (cands : List (List Char)) : List (List Char) :=
  [] :: ['x'] :: cands.filter (fun v => ! is_valid v)

/-! ### Bit-list infrastructure -/

theorem length_natToBits (w v : Nat) : (natToBits w v).length = w := by
  induction w generalizing v with
  | zero => rfl
  | succ w ih => simp [natToBits, ih]

theorem bitsToNat_acc (l : List Bool) (a : Nat) :
    List.foldl (fun x b => 2 * x + (if b then 1 else 0)) a l =
      a * 2 ^ l.length + bitsToNat l := by
  induction l generalizing a with
  | nil => simp [bitsToNat]
  | cons b l ih =>
    simp only [List.foldl_cons, List.length_cons, bitsToNat]
    rw [ih, ih]
    rw [pow_succ]
    ring

theorem bitsToNat_cons (b : Bool) (l : List Bool) :
    bitsToNat (b :: l) = (if b then 1 else 0) * 2 ^ l.length + bitsToNat l := by
  have h := bitsToNat_acc l (if b then 1 else 0)
  simpa [bitsToNat] using h

theorem bitsToNat_append (l1 l2 : List Bool) :
    bitsToNat (l1 ++ l2) = bitsToNat l1 * 2 ^ l2.length + bitsToNat l2 := by
  simp only [bitsToNat, List.foldl_append]
  exact bitsToNat_acc l2 _

theorem bitsToNat_lt (l : List Bool) : bitsToNat l < 2 ^ l.length := by
  induction l with
  | nil => simp [bitsToNat]
  | cons b l ih =>
    rw [bitsToNat_cons, List.length_cons, pow_succ]
    cases b <;> simp <;> omega

theorem bitsToNat_replicate_false (p : Nat) :
    bitsToNat (List.replicate p false) = 0 := by
  induction p with
  | zero => rfl
  | succ p ih => rw [List.replicate_succ, bitsToNat_cons, ih]; simp

theorem bitsToNat_natToBits (w v : Nat) : bitsToNat (natToBits w v) = v % 2 ^ w := by
  induction w with
  | zero => simp [natToBits, bitsToNat, Nat.mod_one]
  | succ w ih =>
    have key : v % 2 ^ (w + 1) = 2 ^ w * (v / 2 ^ w % 2) + v % 2 ^ w := by
      conv_lhs => rw [show (2 : Nat) ^ (w + 1) = 2 ^ w * 2 by ring]
      rw [Nat.mod_mul]
      ring
    have ht : v.testBit w = decide (v / 2 ^ w % 2 = 1) := Nat.testBit_to_div_mod
    have hd : v / 2 ^ w % 2 = 0 ∨ v / 2 ^ w % 2 = 1 := Nat.mod_two_eq_zero_or_one _
    simp only [natToBits, bitsToNat_cons, length_natToBits, ih, ht, key]
    rcases hd with h | h <;> simp [h]

theorem natToBits_congr (w : Nat) (v u : Nat) (h : ∀ i < w, v.testBit i = u.testBit i) :
    natToBits w v = natToBits w u := by
  induction w with
  | zero => rfl
  | succ w ih =>
    simp only [natToBits]
    rw [h w (by omega), ih (fun i hi => h i (by omega))]

theorem natToBits_mod (w v : Nat) : natToBits w (v % 2 ^ w) = natToBits w v := by
  refine natToBits_congr w _ _ (fun i hi => ?_)
  rw [Nat.testBit_mod_two_pow]
  simp [hi]

theorem natToBits_bitsToNat (l : List Bool) : natToBits l.length (bitsToNat l) = l := by
  induction l with
  | nil => rfl
  | cons b l ih =>
    have hMlt : bitsToNat l < 2 ^ l.length := bitsToNat_lt l
    have hP : 0 < 2 ^ l.length := Nat.pos_pow_of_pos _ (by omega)
    have hN : bitsToNat (b :: l) = bitsToNat l + (if b then 1 else 0) * 2 ^ l.length := by
      rw [bitsToNat_cons]
      omega
    have hdiv : bitsToNat (b :: l) / 2 ^ l.length = (if b then 1 else 0) := by
      rw [hN, Nat.add_mul_div_right _ _ hP, Nat.div_eq_of_lt hMlt]
      omega
    have hmod : bitsToNat (b :: l) % 2 ^ l.length = bitsToNat l := by
      rw [hN, Nat.add_mul_mod_self_right]
      exact Nat.mod_eq_of_lt hMlt
    have hbit : (bitsToNat (b :: l)).testBit l.length = b := by
      rw [Nat.testBit_to_div_mod, hdiv]
      cases b <;> simp
    have htail : natToBits l.length (bitsToNat (b :: l)) = l := by
      rw [← natToBits_mod, hmod, ih]
    simp only [List.length_cons, natToBits, hbit, htail]

theorem bitsToNat_natToBits_of_lt (w v : Nat) (h : v < 2 ^ w) :
    bitsToNat (natToBits w v) = v := by
  rw [bitsToNat_natToBits, Nat.mod_eq_of_lt h]

/-! ### Chunk lemmas -/

theorem chunks_nil (n : Nat) : chunks n ([] : List α) = [] := by
  simp [chunks]

theorem chunks_cons_eq (n : Nat) (hn : n ≠ 0) (x : α) (xs : List α) :
    chunks n (x :: xs) = (x :: xs).take n :: chunks n ((x :: xs).drop n) := by
  rw [chunks]
  simp [hn]

theorem chunks_append (n : Nat) (hn : 0 < n) (l1 l2 : List α) (h : l1.length = n) :
    chunks n (l1 ++ l2) = l1 :: chunks n l2 := by
  cases l1 with
  | nil => simp at h; omega
  | cons x xs =>
    have hcons : (x :: xs) ++ l2 = x :: (xs ++ l2) := rfl
    rw [hcons, chunks_cons_eq n (by omega), ← hcons]
    rw [List.take_left' h, List.drop_left' h]

theorem flatten_chunks (n : Nat) (hn : 0 < n) (l : List α) : (chunks n l).flatten = l := by
  suffices h : ∀ (len : Nat) (l : List α), l.length = len → (chunks n l).flatten = l from
    h l.length l rfl
  intro len
  induction len using Nat.strong_induction_on with
  | _ len ih =>
    intro l hl
    cases l with
    | nil => simp [chunks_nil]
    | cons x xs =>
      rw [chunks_cons_eq n (by omega), List.flatten_cons]
      rw [ih ((x :: xs).drop n).length ?_ _ rfl]
      · exact List.take_append_drop n (x :: xs)
      · subst hl
        simp only [List.length_drop, List.length_cons]
        omega

theorem chunks_flatMap_uniform (n : Nat) (hn : 0 < n) (l : List α) (f : α → List β)
    (h : ∀ x ∈ l, (f x).length = n) : chunks n (l.flatMap f) = l.map f := by
  induction l with
  | nil => simp [chunks_nil]
  | cons x xs ih =>
    rw [List.flatMap_cons, chunks_append n hn _ _ (h x (by simp)), List.map_cons]
    rw [ih (fun y hy => h y (by simp [hy]))]

theorem mem_chunks_length (n : Nat) (hn : 0 < n) (l : List α) (hd : n ∣ l.length) :
    ∀ c ∈ chunks n l, c.length = n := by
  suffices h : ∀ (len : Nat) (l : List α), l.length = len → n ∣ l.length →
      ∀ c ∈ chunks n l, c.length = n from fun c hc => h l.length l rfl hd c hc
  intro len
  induction len using Nat.strong_induction_on with
  | _ len ih =>
    intro l hl hdvd c hc
    cases l with
    | nil => simp [chunks_nil] at hc
    | cons x xs =>
      rw [chunks_cons_eq n (by omega)] at hc
      have hge : n ≤ xs.length + 1 := by
        have := Nat.le_of_dvd (by simp) hdvd
        simpa using this
      have hl' : xs.length + 1 = len := by simpa using hl
      rcases List.mem_cons.mp hc with rfl | hc
      · simp only [List.length_take, List.length_cons]
        omega
      · refine ih ((x :: xs).drop n).length ?_ _ rfl ?_ c hc
        · simp only [List.length_drop, List.length_cons]
          omega
        · simp only [List.length_drop]
          exact (Nat.dvd_sub' hdvd dvd_rfl)

theorem chunks_length (n : Nat) (hn : 0 < n) (l : List α) (hd : n ∣ l.length) :
    (chunks n l).length = l.length / n := by
  suffices h : ∀ (len : Nat) (l : List α), l.length = len → n ∣ l.length →
      (chunks n l).length = l.length / n from h l.length l rfl hd
  intro len
  induction len using Nat.strong_induction_on with
  | _ len ih =>
    intro l hl hdvd
    cases l with
    | nil => simp [chunks_nil]
    | cons x xs =>
      rw [chunks_cons_eq n (by omega)]
      have hge : n ≤ xs.length + 1 := by
        have := Nat.le_of_dvd (by simp) hdvd
        simpa using this
      have hl' : xs.length + 1 = len := by simpa using hl
      have hrec : (chunks n ((x :: xs).drop n)).length = ((x :: xs).drop n).length / n := by
        refine ih ((x :: xs).drop n).length ?_ _ rfl ?_
        · simp only [List.length_drop, List.length_cons]
          omega
        · simp only [List.length_drop]
          exact Nat.dvd_sub' hdvd dvd_rfl
      simp only [List.length_cons, hrec, List.length_drop]
      obtain ⟨k, hk⟩ := hdvd
      have h1 : xs.length + 1 = n * k := by simpa using hk
      have hk1 : 1 ≤ k := by
        cases k with
        | zero => omega
        | succ m => omega
      rw [h1]
      rw [show n * k - n = n * (k - 1) from by rw [Nat.mul_sub_one]]
      rw [Nat.mul_div_cancel_left _ hn, Nat.mul_div_cancel_left _ hn]
      omega

theorem getLastD_map (f : α → β) (l : List α) (hne : l ≠ []) (d : α) (d' : β) :
    (l.map f).getLastD d' = f (l.getLastD d) := by
  induction l generalizing d d' with
  | nil => simp at hne
  | cons x xs ih =>
    cases xs with
    | nil => simp
    | cons y ys =>
      rw [List.map_cons, List.getLastD_cons, List.getLastD_cons]
      exact ih (by simp) x (f x)

theorem getLastD_of_ne_nil (l : List α) (hne : l ≠ []) (d d' : α) :
    l.getLastD d = l.getLastD d' := by
  cases l with
  | nil => simp at hne
  | cons x xs => rw [List.getLastD_cons d, List.getLastD_cons d']

theorem chunks_getLastD (n : Nat) (hn : 0 < n) (l : List α) (hd : n ∣ l.length)
    (hne : l ≠ []) : (chunks n l).getLastD [] = l.drop (l.length - n) := by
  suffices h : ∀ (len : Nat) (l : List α), l.length = len → n ∣ l.length → l ≠ [] →
      (chunks n l).getLastD [] = l.drop (l.length - n) from h l.length l rfl hd hne
  intro len
  induction len using Nat.strong_induction_on with
  | _ len ih =>
    intro l hl hdvd hne
    cases l with
    | nil => simp at hne
    | cons x xs =>
      rw [chunks_cons_eq n (by omega)]
      have hge : n ≤ xs.length + 1 := by
        have := Nat.le_of_dvd (by simp) hdvd
        simpa using this
      have hl' : xs.length + 1 = len := by simpa using hl
      by_cases hrest : (x :: xs).drop n = []
      · have hlen0 : (x :: xs).length = n := by
          have := congrArg List.length hrest
          simp only [List.length_drop, List.length_nil] at this
          omega
        rw [hrest, chunks_nil]
        simp only [List.getLastD_cons, List.getLastD_nil]
        rw [hlen0, Nat.sub_self, List.drop_zero]
        rw [← hlen0, List.take_length]
      · have hlengt : n < (x :: xs).length := by
          by_contra hcon
          push_neg at hcon
          have : (x :: xs).length = n := by omega
          apply hrest
          rw [List.drop_eq_nil_iff]
          omega
        have hchne : chunks n ((x :: xs).drop n) ≠ [] := by
          cases hdrop : (x :: xs).drop n with
          | nil => exact absurd hdrop hrest
          | cons y ys =>
            rw [chunks_cons_eq n (by omega)]
            simp
        have hrec : (chunks n ((x :: xs).drop n)).getLastD [] =
            ((x :: xs).drop n).drop (((x :: xs).drop n).length - n) := by
          refine ih ((x :: xs).drop n).length ?_ _ rfl ?_ hrest
          · simp only [List.length_drop, List.length_cons]
            omega
          · simp only [List.length_drop]
            exact Nat.dvd_sub' hdvd dvd_rfl
        rw [List.getLastD_cons]
        rw [getLastD_of_ne_nil _ hchne _ []]
        rw [hrec, List.drop_drop, List.length_drop]
        have hpos : 0 < (x :: xs).length - n := by
          simp only [List.length_cons]
          simp only [List.length_cons] at hlengt
          omega
        have hdvd' : n ∣ (x :: xs).length - n := Nat.dvd_sub' hdvd dvd_rfl
        have h2n : n ≤ (x :: xs).length - n := Nat.le_of_dvd hpos hdvd'
        congr 1
        omega

theorem chunksGo_spec (n : Nat) (hn : 0 < n) :
    ∀ (l acc : List α) (k : Nat), 0 < k → ¬(l = [] ∧ acc = []) →
      chunksGo n l acc k = (acc.reverse ++ l.take k) :: chunks n (l.drop k) := by
  intro l
  induction l with
  | nil =>
    intro acc k hk hne
    cases acc with
    | nil => exact absurd ⟨rfl, rfl⟩ hne
    | cons a as => simp [chunksGo, chunks_nil]
  | cons x xs ih =>
    intro acc k hk hne
    cases k with
    | zero => omega
    | succ k' =>
      by_cases hk0 : k' = 0
      · subst hk0
        cases xs with
        | nil => simp [chunksGo, chunks_nil, List.reverse_cons]
        | cons y ys =>
          rw [show chunksGo n (x :: y :: ys) acc 1 =
              (x :: acc).reverse :: chunksGo n (y :: ys) [] n from by simp [chunksGo]]
          rw [ih [] n hn (by simp)]
          rw [show (x :: y :: ys).take 1 = [x] from rfl,
            show (x :: y :: ys).drop 1 = y :: ys from rfl]
          rw [chunks_cons_eq n (by omega)]
          simp [List.reverse_cons]
      · rw [show chunksGo n (x :: xs) acc (k' + 1) = chunksGo n xs (x :: acc) k' from by
          simp [chunksGo, hk0]]
        rw [ih (x :: acc) k' (by omega) (by simp)]
        rw [List.take_succ_cons, List.drop_succ_cons]
        simp [List.reverse_cons, List.append_assoc]

theorem chunksE_eq_chunks (n : Nat) (hn : 0 < n) (l : List α) : chunksE n l = chunks n l := by
  cases l with
  | nil => simp [chunksE, chunksGo, chunks_nil]
  | cons x xs =>
    rw [chunksE, chunksGo_spec n hn (x :: xs) [] n hn (by simp)]
    rw [chunks_cons_eq n (by omega)]
    simp

/-! ### convertbits lemmas -/

theorem length_flatMap_const (l : List Nat) (f : Nat → List Bool) (w : Nat)
    (h : ∀ x ∈ l, (f x).length = w) : (l.flatMap f).length = l.length * w := by
  induction l with
  | nil => simp
  | cons x xs ih =>
    simp only [List.flatMap_cons, List.length_append, List.length_cons]
    rw [h x (by simp), ih (fun y hy => h y (by simp [hy]))]
    ring

theorem convertbits_85 (l : List Nat) :
    convertbits l 8 5 true =
      some ((chunks 5 (l.flatMap (natToBits 8) ++
        List.replicate ((5 - (l.flatMap (natToBits 8)).length % 5) % 5) false)).map
          bitsToNat) := by
  simp only [convertbits]
  rw [chunksE_eq_chunks 5 (by omega)]
  simp

theorem conv85_length (l : List Nat) :
    ((convertbits l 8 5 true).getD []).length = (8 * l.length + 4) / 5 := by
  have h8 : (l.flatMap (natToBits 8)).length = l.length * 8 :=
    length_flatMap_const l _ 8 (fun x _ => length_natToBits 8 x)
  rw [convertbits_85]
  simp only [Option.getD_some, List.length_map]
  have hdvd : 5 ∣ (l.flatMap (natToBits 8) ++
      List.replicate ((5 - (l.flatMap (natToBits 8)).length % 5) % 5) false).length := by
    simp only [List.length_append, List.length_replicate]
    omega
  rw [chunks_length 5 (by omega) _ hdvd]
  simp only [List.length_append, List.length_replicate, h8]
  omega

theorem conv85_lt (l : List Nat) : ∀ d ∈ (convertbits l 8 5 true).getD [], d < 32 := by
  have hdvd : 5 ∣ (l.flatMap (natToBits 8) ++
      List.replicate ((5 - (l.flatMap (natToBits 8)).length % 5) % 5) false).length := by
    simp only [List.length_append, List.length_replicate]
    omega
  rw [convertbits_85]
  simp only [Option.getD_some, List.mem_map]
  rintro d ⟨c, hc, rfl⟩
  have hlen : c.length = 5 := mem_chunks_length 5 (by omega) _ hdvd c hc
  have hlt := bitsToNat_lt c
  rw [hlen] at hlt
  simpa using hlt

theorem convertbits_roundtrip (l : List Nat) (hb : ∀ b ∈ l, b < 256) :
    convertbits ((convertbits l 8 5 true).getD []) 5 8 false = some l := by
  have h8 : (l.flatMap (natToBits 8)).length = l.length * 8 :=
    length_flatMap_const l _ 8 (fun x _ => length_natToBits 8 x)
  set bits8 := l.flatMap (natToBits 8) with hbits8
  set p := (5 - bits8.length % 5) % 5 with hpdef
  set padded := bits8 ++ List.replicate p false with hpadded
  have hplen : padded.length = bits8.length + p := by
    simp [hpadded]
  have hdvd : 5 ∣ padded.length := by rw [hplen]; omega
  have hchunk5 : ∀ c ∈ chunks 5 padded, c.length = 5 := mem_chunks_length 5 (by omega) _ hdvd
  have hback : ((chunks 5 padded).map bitsToNat).flatMap (natToBits 5) = padded := by
    rw [List.flatMap_def, List.map_map]
    have hcongr : ∀ c ∈ chunks 5 padded, (natToBits 5 ∘ bitsToNat) c = id c := by
      intro c hc
      simp only [Function.comp_apply, id_eq]
      rw [← hchunk5 c hc]
      exact natToBits_bitsToNat c
    rw [List.map_congr_left hcongr, List.map_id]
    exact flatten_chunks 5 (by omega) padded
  have h85 : (convertbits l 8 5 true).getD [] = (chunks 5 padded).map bitsToNat := by
    rw [convertbits_85]
    rfl
  rw [h85]
  simp only [convertbits, if_false, Bool.false_eq_true]
  rw [hback, hplen]
  have hr : (bits8.length + p) % 8 = p := by omega
  rw [hr]
  have hsub : bits8.length + p - p = bits8.length := by omega
  rw [hsub]
  have hdrop : padded.drop bits8.length = List.replicate p false :=
    List.drop_left' rfl
  have htake : padded.take bits8.length = bits8 :=
    List.take_left' rfl
  rw [hdrop, htake]
  have hcond : ¬(5 ≤ p ∨ (List.replicate p false).any id = true) := by
    push_neg
    constructor
    · omega
    · simp
  rw [if_neg hcond]
  rw [chunksE_eq_chunks 8 (by omega)]
  have huniform : chunks 8 bits8 = l.map (natToBits 8) :=
    chunks_flatMap_uniform 8 (by omega) l (natToBits 8) (fun x _ => length_natToBits 8 x)
  rw [huniform, List.map_map]
  have hid : ∀ x ∈ l, (bitsToNat ∘ natToBits 8) x = id x := by
    intro x hx
    simp only [Function.comp_apply, id_eq]
    rw [bitsToNat_natToBits]
    exact Nat.mod_eq_of_lt (by simpa using hb x hx)
  rw [List.map_congr_left hid, List.map_id]

theorem lor_one_of_even (x : Nat) (h : x % 2 = 0) : x ||| 1 = x + 1 := by
  obtain ⟨k, rfl⟩ : ∃ k, x = 2 * k := ⟨x / 2, by omega⟩
  apply Nat.eq_of_testBit_eq
  intro i
  cases i with
  | zero => simp [Nat.testBit_lor]; omega
  | succ i =>
    rw [Nat.testBit_lor]
    rw [Nat.testBit_succ, Nat.testBit_succ, Nat.testBit_succ]
    have h1 : (2 * k) / 2 = k := by omega
    have h2 : (1 : Nat) / 2 = 0 := by omega
    have h3 : (2 * k + 1) / 2 = k := by omega
    simp [h1, h2, h3]

theorem conv85_getLastD_even (l : List Nat) (hne : l.length % 5 = 2 ∨ l.length % 5 = 4) :
    (convertbits l 8 5 true).getD [] ≠ [] ∧
    ((convertbits l 8 5 true).getD []).getLastD 0 % 2 = 0 := by
  have h8 : (l.flatMap (natToBits 8)).length = l.length * 8 :=
    length_flatMap_const l _ 8 (fun x _ => length_natToBits 8 x)
  set bits8 := l.flatMap (natToBits 8) with hbits8
  set p := (5 - bits8.length % 5) % 5 with hpdef
  set padded := bits8 ++ List.replicate p false with hpadded
  have hplen : padded.length = bits8.length + p := by simp [hpadded]
  have hp34 : p = 3 ∨ p = 4 := by omega
  have hdvd : 5 ∣ padded.length := by rw [hplen]; omega
  have hpadne : padded ≠ [] := by
    intro hcon
    have := congrArg List.length hcon
    rw [hplen] at this
    simp at this
    omega
  have hchne : chunks 5 padded ≠ [] := by
    intro hcon
    have hfl := flatten_chunks 5 (by omega) padded
    rw [hcon] at hfl
    simp at hfl
    exact hpadne hfl
  have h85 : (convertbits l 8 5 true).getD [] = (chunks 5 padded).map bitsToNat := by
    rw [convertbits_85]
    rfl
  rw [h85]
  constructor
  · simp only [ne_eq, List.map_eq_nil_iff]
    exact hchne
  · rw [getLastD_map bitsToNat _ hchne [] 0]
    rw [chunks_getLastD 5 (by omega) padded hdvd hpadne]
    have hle : padded.length - 5 ≤ bits8.length := by omega
    rw [hplen]
    have hdrop : padded.drop (bits8.length + p - 5) =
        bits8.drop (bits8.length + p - 5) ++ List.replicate p false := by
      exact List.drop_append_of_le_length (by omega)
    rw [hdrop, bitsToNat_append, bitsToNat_replicate_false, List.length_replicate]
    rcases hp34 with hp | hp <;> rw [hp] <;> omega

/-! ### Codec lemmas -/

theorem create_checksum_length (enc : Encoding) (hrp : List Char) (data : List Nat) :
    (bech32_create_checksum enc hrp data).length = 6 := by
  simp [bech32_create_checksum]

theorem create_checksum_lt (enc : Encoding) (hrp : List Char) (data : List Nat) :
    ∀ x ∈ bech32_create_checksum enc hrp data, x < 32 := by
  intro x hx
  simp only [bech32_create_checksum, List.mem_map, List.mem_range] at hx
  obtain ⟨i, _, rfl⟩ := hx
  exact Nat.lt_succ_of_le Nat.and_le_right

theorem charset_facts :
    ∀ c ∈ CHARSET, Char.toLower c = c ∧ 33 ≤ c.toNat ∧ c.toNat ≤ 126 ∧ c ≠ '1' := by
  decide

theorem charsetGet_mem (d : Nat) : CHARSET.getD d 'q' ∈ CHARSET := by
  have h32 : CHARSET.length = 32 := rfl
  by_cases hd : d < 32
  · rw [List.getD_eq_getElem CHARSET 'q' (by omega)]
    exact List.getElem_mem _
  · rw [List.getD_eq_default CHARSET 'q' (by omega)]
    decide

theorem charset_index_lt : ∀ d < 32, List.indexOf (CHARSET.getD d 'q') CHARSET = d := by
  decide

theorem rfind1_eq_none (l : List Char) (h : ∀ c ∈ l, c ≠ '1') : rfind1 l = none := by
  induction l with
  | nil => rfl
  | cons c cs ih =>
    simp only [rfind1, ih (fun x hx => h x (by simp [hx]))]
    simp [h c (by simp)]

theorem rfind1_cons_one (l : List Char) (h : rfind1 l = none) :
    rfind1 ('1' :: l) = some 0 := by
  simp [rfind1, h]

theorem rfind1_append_some (l1 l2 : List Char) (i : Nat) (h : rfind1 l2 = some i) :
    rfind1 (l1 ++ l2) = some (l1.length + i) := by
  induction l1 with
  | nil => simpa using h
  | cons c cs ih =>
    simp only [List.cons_append, rfind1, List.append_eq, ih, List.length_cons]
    congr 1
    omega

theorem bech32_encode_length (enc : Encoding) (hrp : List Char) (data : List Nat) :
    (bech32_encode enc hrp data).length = hrp.length + 1 + data.length + 6 := by
  simp only [bech32_encode, List.length_append, List.length_cons, List.length_map,
    create_checksum_length]
  omega

theorem bech32_decode_encode (hrp : List Char) (data : List Nat)
    (hhrp : ∀ c ∈ hrp, Char.toLower c = c ∧ 33 ≤ c.toNat ∧ c.toNat ≤ 126 ∧ c ≠ '1')
    (hhrp1 : 1 ≤ hrp.length)
    (hlen : hrp.length + 1 + data.length + 6 ≤ 90)
    (hdata : ∀ d ∈ data, d < 32) :
    bech32_decode (bech32_encode .BECH32M hrp data) = some (hrp, data, .BECH32M) := by
  set cs := bech32_create_checksum .BECH32M hrp data with hcs
  have hcsl : cs.length = 6 := create_checksum_length _ _ _
  have hcslt : ∀ x ∈ cs, x < 32 := create_checksum_lt _ _ _
  set syms := (data ++ cs).map (fun d => CHARSET.getD d 'q') with hsyms
  have henc : bech32_encode .BECH32M hrp data = hrp ++ '1' :: syms := rfl
  have hsymmem : ∀ c ∈ syms, c ∈ CHARSET := by
    intro c hc
    rw [hsyms] at hc
    simp only [List.mem_map] at hc
    obtain ⟨d, _, rfl⟩ := hc
    exact charsetGet_mem d
  have hsymlen : syms.length = data.length + 6 := by
    rw [hsyms]
    simp [hcsl]
  have hall : ∀ c ∈ hrp ++ '1' :: syms,
      Char.toLower c = c ∧ 33 ≤ c.toNat ∧ c.toNat ≤ 126 := by
    intro c hc
    rcases List.mem_append.mp hc with hc | hc
    · exact ⟨(hhrp c hc).1, (hhrp c hc).2.1, (hhrp c hc).2.2.1⟩
    · rcases List.mem_cons.mp hc with rfl | hc
      · exact ⟨by decide, by decide, by decide⟩
      · have hf := charset_facts c (hsymmem c hc)
        exact ⟨hf.1, hf.2.1, hf.2.2.1⟩
  have hany : ((hrp ++ '1' :: syms).any fun c =>
      decide (c.toNat < 33) || decide (126 < c.toNat)) = false := by
    rw [List.any_eq_false]
    intro c hc
    obtain ⟨-, h1, h2⟩ := hall c hc
    simp only [Bool.or_eq_true, decide_eq_true_eq, not_or]
    omega
  have hlower : (hrp ++ '1' :: syms).map Char.toLower = hrp ++ '1' :: syms := by
    have hcongr : ∀ c ∈ hrp ++ '1' :: syms, Char.toLower c = c := fun c hc => (hall c hc).1
    rw [List.map_congr_left hcongr]
    simp
  have hrf : rfind1 (hrp ++ '1' :: syms) = some hrp.length := by
    have hnone : rfind1 syms = none :=
      rfind1_eq_none syms (fun c hc => (charset_facts c (hsymmem c hc)).2.2.2)
    have h1 : rfind1 ('1' :: syms) = some 0 := rfind1_cons_one syms hnone
    have h2 := rfind1_append_some hrp ('1' :: syms) 0 h1
    simpa using h2
  have hdropsym : (hrp ++ '1' :: syms).drop (hrp.length + 1) = syms := by
    rw [show hrp ++ '1' :: syms = (hrp ++ ['1']) ++ syms by simp]
    exact List.drop_left' (by simp)
  have htakehrp : (hrp ++ '1' :: syms).take hrp.length = hrp := List.take_left' rfl
  have hidx : syms.map (fun c => List.indexOf c CHARSET) = data ++ cs := by
    rw [hsyms, List.map_map]
    have hcongr : ∀ d ∈ data ++ cs,
        ((fun c => List.indexOf c CHARSET) ∘ fun d => CHARSET.getD d 'q') d = id d := by
      intro d hd
      simp only [Function.comp_apply, id_eq]
      rcases List.mem_append.mp hd with hd | hd
      · exact charset_index_lt d (hdata d hd)
      · exact charset_index_lt d (hcslt d hd)
    rw [List.map_congr_left hcongr, List.map_id]
  have hverify : bech32_verify_checksum hrp (data ++ cs) = some .BECH32M := by
    have hvlen : (data ++ cs).length = data.length + 6 := by simp [hcsl]
    rw [bech32_verify_checksum]
    rw [if_pos]
    constructor
    · omega
    · rw [hvlen, Nat.add_sub_cancel]
      rw [List.drop_left' rfl, List.take_left' rfl]
  rw [henc, bech32_decode]
  rw [if_neg (by simp [hany])]
  rw [if_neg (by intro hcon; exact hcon.1 hlower)]
  simp only [hlower, hrf, Option.some_bind]
  rw [if_neg (by
    simp only [List.length_append, List.length_cons, hsymlen, not_or, not_lt]
    refine ⟨by omega, by omega, by omega⟩)]
  rw [if_neg (by
    simp only [hdropsym, not_not, List.all_eq_true, decide_eq_true_eq]
    intro c hc
    exact hsymmem c hc)]
  have hlen2 : (data ++ cs).length - 6 = data.length := by simp [hcsl]
  simp only [hdropsym, hidx, htakehrp, hverify, hlen2, List.take_left' rfl]
  rfl

theorem decode_segwit_address_encode (hrp : List Char)
    (hh : hrp = ricL ∨ hrp = tricL ∨ hrp = rricL)
    (ver : Nat) (hver : ver ≤ 16) (witprog : List Nat)
    (hb : ∀ b ∈ witprog, b < 256)
    (h2 : 2 ≤ witprog.length) (h40 : witprog.length ≤ 40)
    (h0 : ver = 0 → witprog.length = 20 ∨ witprog.length = 32) :
    decode_segwit_address hrp
      (bech32_encode .BECH32M hrp (ver :: (convertbits witprog 8 5 true).getD [])) =
      some (ver, witprog) := by
  set conv := (convertbits witprog 8 5 true).getD [] with hconv
  have hconvlen : conv.length = (8 * witprog.length + 4) / 5 := conv85_length witprog
  have hconvlt : ∀ d ∈ conv, d < 32 := conv85_lt witprog
  have hdata : ∀ d ∈ ver :: conv, d < 32 := by
    intro d hd
    rcases List.mem_cons.mp hd with rfl | hd
    · omega
    · exact hconvlt d hd
  have hhrpfacts : ∀ c ∈ hrp,
      Char.toLower c = c ∧ 33 ≤ c.toNat ∧ c.toNat ≤ 126 ∧ c ≠ '1' := by
    rcases hh with rfl | rfl | rfl <;> decide
  have hhrp1 : 1 ≤ hrp.length := by rcases hh with rfl | rfl | rfl <;> decide
  have hhrp4 : hrp.length ≤ 4 := by rcases hh with rfl | rfl | rfl <;> decide
  have hlen90 : hrp.length + 1 + (ver :: conv).length + 6 ≤ 90 := by
    simp only [List.length_cons, hconvlen]
    omega
  have hdec := bech32_decode_encode hrp (ver :: conv) hhrpfacts hhrp1 hlen90 hdata
  have hrt : convertbits conv 5 8 false = some witprog := convertbits_roundtrip witprog hb
  rw [decode_segwit_address, hdec]
  simp only [Option.some_bind]
  rw [if_neg (by simp)]
  have hdrop : (ver :: conv).drop 1 = conv := rfl
  simp only [hdrop, hrt, Option.some_bind, List.headD_cons]
  rw [if_neg (by omega)]
  rw [if_neg (by omega)]
  rw [if_neg (by
    rintro ⟨hv0, h20, h32⟩
    rcases h0 hv0 with h | h <;> omega)]
  rw [if_neg (by simp)]

/-! ### Oracle lemmas -/

theorem length_bytesHex (bs : List Nat) : (bytesHex bs).length = 2 * bs.length := by
  induction bs with
  | nil => simp [bytesHex]
  | cons b bs ih =>
    simp only [bytesHex, List.flatMap_cons, List.length_append] at ih ⊢
    rw [ih]
    simp [byteHex]
    omega

theorem is_valid_eq_bech32 (v : List Char) (h67 : v.length ≠ 67) (h46 : v.length ≠ 46)
    (h50 : v.length ≠ 50) : is_valid v = is_valid_bech32 v := by
  rw [is_valid]
  rw [if_neg h67]
  rw [if_neg (by rintro ⟨h, -⟩; exact h46 h)]
  rw [if_neg (by rintro ⟨h, -⟩; exact h50 h)]

theorem is_valid_bech32_of_decode (v : List Char) (h : List Char)
    (hh : h = ricL ∨ h = tricL ∨ h = rricL) (x : Nat × List Nat)
    (hdec : decode_segwit_address h v = some x) : is_valid_bech32 v = true := by
  rw [is_valid_bech32, List.any_eq_true]
  refine ⟨h, ?_, ?_⟩
  · rcases hh with rfl | rfl | rfl <;> simp
  · simp [hdec]

theorem gen_valid_legacy_length (t : LegacyTemplate) (payload : List Nat) :
    (gen_valid_legacy_vector t payload).1.length =
      t.tplPre.length + 2 * t.outPre.length + 2 * payload.length + 2 * t.outSuf.length := by
  simp [gen_valid_legacy_vector, length_bytesHex]
  ring

theorem legacy_template_valid : ∀ t ∈ templates, ∀ payload : List Nat,
    payload.length = t.payloadSize → is_valid (gen_valid_legacy_vector t payload).1 = true := by
  intro t ht payload hlen
  simp only [templates, List.mem_cons, List.not_mem_nil, or_false] at ht
  rcases ht with rfl | rfl | rfl
  · -- P2PKH template: `76a914` ++ payload hex ++ `88ac`, length 50
    have hlen' : payload.length = 20 := hlen
    have hL : (gen_valid_legacy_vector
        ⟨[], 20, [], ⟨some false, some mainC, none, none⟩, pubkeyPre, pubkeySuf⟩ payload).1.length
        = 50 := by
      rw [gen_valid_legacy_length]
      simp [pubkeyPre, pubkeySuf, hlen']
    have hv : (gen_valid_legacy_vector
        ⟨[], 20, [], ⟨some false, some mainC, none, none⟩, pubkeyPre, pubkeySuf⟩ payload).1
        = ['7','6','a','9','1','4'] ++ (bytesHex payload ++ ['8','8','a','c']) := by
      show [] ++ bytesHex pubkeyPre ++ bytesHex payload ++ bytesHex pubkeySuf = _
      rw [show bytesHex pubkeyPre = ['7','6','a','9','1','4'] from rfl,
        show bytesHex pubkeySuf = ['8','8','a','c'] from rfl]
      simp
    rw [is_valid]
    rw [if_neg (by rw [hL]; decide)]
    rw [if_neg (by rintro ⟨h, -⟩; rw [hL] at h; omega)]
    rw [if_pos]
    refine ⟨hL, ?_, ?_⟩
    · rw [hv]
      exact List.take_left' rfl
    · rw [hv, show ['7','6','a','9','1','4'] ++ (bytesHex payload ++ ['8','8','a','c']) =
        (['7','6','a','9','1','4'] ++ bytesHex payload) ++ ['8','8','a','c'] from by simp]
      refine List.drop_left' ?_
      simp [length_bytesHex, hlen']
  · -- P2SH template: `a914` ++ payload hex ++ `87`, length 46
    have hlen' : payload.length = 20 := hlen
    have hL : (gen_valid_legacy_vector
        ⟨[], 20, [], ⟨some false, some mainC, none, none⟩, scriptPre, scriptSuf⟩ payload).1.length
        = 46 := by
      rw [gen_valid_legacy_length]
      simp [scriptPre, scriptSuf, hlen']
    have hv : (gen_valid_legacy_vector
        ⟨[], 20, [], ⟨some false, some mainC, none, none⟩, scriptPre, scriptSuf⟩ payload).1
        = ['a','9','1','4'] ++ (bytesHex payload ++ ['8','7']) := by
      show [] ++ bytesHex scriptPre ++ bytesHex payload ++ bytesHex scriptSuf = _
      rw [show bytesHex scriptPre = ['a','9','1','4'] from rfl,
        show bytesHex scriptSuf = ['8','7'] from rfl]
      simp
    rw [is_valid]
    rw [if_neg (by rw [hL]; decide)]
    rw [if_pos]
    refine ⟨hL, ?_, ?_⟩
    · rw [hv]
      exact List.take_left' rfl
    · rw [hv, show ['a','9','1','4'] ++ (bytesHex payload ++ ['8','7']) =
        (['a','9','1','4'] ++ bytesHex payload) ++ ['8','7'] from by simp]
      refine List.drop_left' ?_
      simp [length_bytesHex, hlen']
  · -- private-key template: `prv` ++ payload hex, length 67
    have hlen' : payload.length = 32 := hlen
    have hL : (gen_valid_legacy_vector
        ⟨['p','r','v'], 32, [], ⟨some true, some mainC, some true, none⟩, [], []⟩ payload).1.length
        = 67 := by
      rw [gen_valid_legacy_length]
      simp [hlen']
    have hv : (gen_valid_legacy_vector
        ⟨['p','r','v'], 32, [], ⟨some true, some mainC, some true, none⟩, [], []⟩ payload).1
        = ['p','r','v'] ++ bytesHex payload := by
      show ['p','r','v'] ++ bytesHex [] ++ bytesHex payload ++ bytesHex [] = _
      simp [bytesHex]
    rw [is_valid]
    rw [if_pos hL]
    rw [hv]
    rw [List.take_left' (show (['p','r','v'] : List Char).length = 3 from rfl)]
    simp

theorem bech32_template_valid_decode : ∀ t ∈ bech32_templates, ∀ witprog : List Nat,
    witprog.length = t.witprogSize → (∀ b ∈ witprog, b < 256) →
    decode_segwit_address t.hrp (gen_valid_bech32_vector t witprog).1 =
      some (t.witver, witprog) := by
  intro t ht witprog hlen hb
  fin_cases ht <;>
  · refine decode_segwit_address_encode _ (by decide) _ (by decide) witprog hb ?_ ?_ ?_
    · simp [hlen]
    · simp [hlen]
    · intro h0v
      rw [hlen]
      revert h0v
      decide

theorem bech32_template_valid : ∀ t ∈ bech32_templates, ∀ witprog : List Nat,
    witprog.length = t.witprogSize → (∀ b ∈ witprog, b < 256) →
    is_valid (gen_valid_bech32_vector t witprog).1 = true := by
  intro t ht witprog hlen hb
  have hdec := bech32_template_valid_decode t ht witprog hlen hb
  have hlenc : (gen_valid_bech32_vector t witprog).1.length =
      t.hrp.length + 8 + (8 * t.witprogSize + 4) / 5 := by
    show (bech32_encode t.enc t.hrp
      (t.witver :: (convertbits witprog 8 5 true).getD [])).length = _
    rw [bech32_encode_length, List.length_cons, conv85_length, hlen]
    omega
  fin_cases ht <;>
    exact (is_valid_eq_bech32 _ (by rw [hlenc]; decide) (by rw [hlenc]; decide)
      (by rw [hlenc]; decide)).trans (is_valid_bech32_of_decode _ _ (by decide) _ hdec)

theorem rand_bytes_length (g : Nat → Nat) (pos size : Nat) :
    (rand_bytes g pos size).length = size := by
  simp [rand_bytes]

theorem rand_bytes_lt (g : Nat → Nat) (pos size : Nat) :
    ∀ b ∈ rand_bytes g pos size, b < 256 := by
  intro b hb
  simp only [rand_bytes, List.mem_map, List.mem_range] at hb
  obtain ⟨i, -, rfl⟩ := hb
  exact Nat.mod_lt _ (by omega)

theorem genAny_valid (g : Nat → Nat) (pos : Nat) :
    ∀ a ∈ all_templates, is_valid (genAny g pos a).1 = true := by
  intro a ha
  rw [all_templates] at ha
  rcases List.mem_append.mp ha with ha | ha
  · obtain ⟨t, ht, rfl⟩ := List.mem_map.mp ha
    exact legacy_template_valid t ht _ (rand_bytes_length g pos _)
  · obtain ⟨t, ht, rfl⟩ := List.mem_map.mp ha
    exact bech32_template_valid t ht _ (rand_bytes_length g pos _) (rand_bytes_lt g pos _)

theorem validVector_valid (g : Nat → Nat) (k : Nat) :
    is_valid (validVector g k).1 = true := by
  rw [validVector]
  apply genAny_valid
  have h15 : all_templates.length = 15 := rfl
  have hlt : k % all_templates.length < all_templates.length := by
    rw [h15]
    omega
  rw [List.getD_eq_getElem _ _ hlt]
  exact List.getElem_mem _

theorem gen_valid_vectors_valid (g : Nat → Nat) (count : Nat) :
    ∀ v ∈ gen_valid_vectors g count, is_valid v.1 = true := by
  intro v hv
  simp only [gen_valid_vectors, List.mem_map] at hv
  obtain ⟨k, -, rfl⟩ := hv
  exact validVector_valid g k

/-! ### Claim theorems -/

/-- C1: for every template in the legacy and bech32 registries and every state
of the pseudo-random source (any payload of the template's size with 8-bit
entries, exactly what `rand_bytes` draws), the encoded string produced by
`gen_valid_legacy_vector` / `gen_valid_bech32_vector` satisfies `is_valid`,
so the assertion in `gen_valid_vectors` never fails on any element of the
valid stream. -/
theorem c1_valid_generation_satisfies_oracle :
    (∀ t ∈ templates, ∀ payload : List Nat, payload.length = t.payloadSize →
      is_valid (gen_valid_legacy_vector t payload).1 = true) ∧
    (∀ t ∈ bech32_templates, ∀ witprog : List Nat, witprog.length = t.witprogSize →
      (∀ b ∈ witprog, b < 256) →
      is_valid (gen_valid_bech32_vector t witprog).1 = true) ∧
    (∀ (g : Nat → Nat) (count : Nat), ∀ v ∈ gen_valid_vectors g count,
      is_valid v.1 = true) :=
  ⟨legacy_template_valid, bech32_template_valid, gen_valid_vectors_valid⟩

/-- Witness for C1 at the first legacy template and an all-zero payload. -/
theorem c1_witness :
    is_valid (gen_valid_legacy_vector
      ⟨[], 20, [], ⟨some false, some mainC, none, none⟩, pubkeyPre, pubkeySuf⟩
      (List.replicate 20 0)).1 = true :=
  c1_valid_generation_satisfies_oracle.1 _ (by simp [templates]) _ (by simp)

/-- C2: every element of the invalid stream — the two fixed edge cases and
every filtered round-robin corruption output — fails `is_valid`. -/
theorem c2_invalid_stream_rejected :
    ∀ (cands : List (List Char)) (v : List Char),
      v ∈ gen_invalid_vectors cands → is_valid v = false := by
  intro cands v hv
  rw [gen_invalid_vectors] at hv
  rcases List.mem_cons.mp hv with rfl | hv
  · decide
  rcases List.mem_cons.mp hv with rfl | hv
  · decide
  · have hf := List.mem_filter.mp hv
    simpa using hf.2

/-- Witness for C2 at the empty-string edge case. -/
theorem c2_witness : is_valid [] = false :=
  c2_invalid_stream_rejected [] [] (by simp [gen_invalid_vectors])

/-- C8: the valid stream is a deterministic function of the random source:
two sources that agree on every draw produce identical vector sequences for
every count. -/
theorem c8_stream_determinism :
    ∀ (g1 g2 : Nat → Nat), (∀ i, g1 i = g2 i) →
      ∀ count : Nat, gen_valid_vectors g1 count = gen_valid_vectors g2 count := by
  intro g1 g2 h count
  have hg : g1 = g2 := funext h
  rw [hg]

/-- Witness for C8 with the constant-zero source and one element. -/
theorem c8_witness :
    gen_valid_vectors (fun _ => 0) 1 = gen_valid_vectors (fun _ => 0) 1 :=
  c8_stream_determinism _ _ (fun _ => rfl) 1

/-- C9: the legacy checks of `is_valid` are purely positional — any string of
the right length whose fixed positions match is accepted, regardless of the
interior characters. -/
theorem c9_positional_oracle :
    (∀ v : List Char, v.length = 46 → v.take 4 = ['a','9','1','4'] →
      v.drop 44 = ['8','7'] → is_valid v = true) ∧
    (∀ v : List Char, v.length = 50 → v.take 6 = ['7','6','a','9','1','4'] →
      v.drop 46 = ['8','8','a','c'] → is_valid v = true) ∧
    (∀ v : List Char, v.length = 67 → v.take 3 = ['p','r','v'] → is_valid v = true) := by
  refine ⟨?_, ?_, ?_⟩
  · intro v h1 h2 h3
    rw [is_valid, if_neg (by omega), if_pos ⟨h1, h2, h3⟩]
  · intro v h1 h2 h3
    rw [is_valid, if_neg (by omega), if_neg (by rintro ⟨h, -⟩; omega),
      if_pos ⟨h1, h2, h3⟩]
  · intro v h1 h2
    rw [is_valid, if_pos h1, h2]
    simp

/-- Witness for C9: all three shapes accepted with non-hex interiors. -/
theorem c9_witness :
    is_valid (['a','9','1','4'] ++ List.replicate 40 'z' ++ ['8','7']) = true ∧
    is_valid (['7','6','a','9','1','4'] ++ List.replicate 40 'z' ++ ['8','8','a','c']) = true ∧
    is_valid (['p','r','v'] ++ List.replicate 64 'z') = true :=
  ⟨c9_positional_oracle.1 _ (by decide) (by decide) (by decide),
   c9_positional_oracle.2.1 _ (by decide) (by decide) (by decide),
   c9_positional_oracle.2.2 _ (by decide) (by decide)⟩

/-- C10: whenever the randomize-payload-size axis fires, the drawn size is
`max(expovariate-draw, 50)`, hence at least 50 and strictly above every
registered legacy template's payload size. -/
theorem c10_randomized_size_mismatch :
    ∀ t ∈ templates, ∀ expoDraw : Nat,
      invalidPayloadSize t true expoDraw = max expoDraw 50 ∧
      50 ≤ invalidPayloadSize t true expoDraw ∧
      t.payloadSize < invalidPayloadSize t true expoDraw := by
  intro t ht e
  have h1 : invalidPayloadSize t true e = max e 50 := by
    rw [invalidPayloadSize]
    simp
  refine ⟨h1, by rw [h1]; omega, ?_⟩
  rw [h1]
  fin_cases ht <;> simp

/-- Witness for C10 at the first legacy template and a zero exponential draw. -/
theorem c10_witness :
    invalidPayloadSize
        ⟨[], 20, [], ⟨some false, some mainC, none, none⟩, pubkeyPre, pubkeySuf⟩
        true 0 = max 0 50 ∧
    50 ≤ invalidPayloadSize
        ⟨[], 20, [], ⟨some false, some mainC, none, none⟩, pubkeyPre, pubkeySuf⟩ true 0 ∧
    LegacyTemplate.payloadSize
        ⟨[], 20, [], ⟨some false, some mainC, none, none⟩, pubkeyPre, pubkeySuf⟩ <
      invalidPayloadSize
        ⟨[], 20, [], ⟨some false, some mainC, none, none⟩, pubkeyPre, pubkeySuf⟩ true 0 :=
  c10_randomized_size_mismatch _ (by simp [templates]) 0

/-- C3: decoding a valid bech32 vector's encoded string with its template's
human-readable part returns exactly the template's witness version and the
drawn program bytes, and the emitted payload hex is the hex of the output
script head followed by the program hex; in particular the first `ric`
template with an all-zero 20-byte program encodes to a string beginning
`ric1q` whose decode returns version 0 and the zero program. -/
theorem c3_bech32_roundtrip :
    (∀ t ∈ bech32_templates, ∀ witprog : List Nat, witprog.length = t.witprogSize →
      (∀ b ∈ witprog, b < 256) →
      decode_segwit_address t.hrp (gen_valid_bech32_vector t witprog).1 =
        some (t.witver, witprog) ∧
      bytesHex (gen_valid_bech32_vector t witprog).2 =
        bytesHex t.outPre ++ bytesHex witprog) ∧
    ((gen_valid_bech32_vector
        ⟨ricL, 0, 20, ⟨some false, some mainC, none, some true⟩, .BECH32M, p2wpkhPre⟩
        (List.replicate 20 0)).1.take 5 = ['r','i','c','1','q'] ∧
      decode_segwit_address ricL
        (gen_valid_bech32_vector
          ⟨ricL, 0, 20, ⟨some false, some mainC, none, some true⟩, .BECH32M, p2wpkhPre⟩
          (List.replicate 20 0)).1 = some (0, List.replicate 20 0)) := by
  refine ⟨?_, ?_, ?_⟩
  · intro t ht witprog hlen hb
    refine ⟨bech32_template_valid_decode t ht witprog hlen hb, ?_⟩
    show bytesHex (t.outPre ++ witprog) = _
    simp [bytesHex]
  · decide
  · exact bech32_template_valid_decode _ (by simp [bech32_templates]) _ (by simp)
      (by intro b hb; rw [List.eq_of_mem_replicate hb]; omega)

/-- Witness for C3 at the first bech32 template with an all-zero program. -/
theorem c3_witness :
    decode_segwit_address
        (Bech32Template.hrp
          ⟨ricL, 0, 20, ⟨some false, some mainC, none, some true⟩, .BECH32M, p2wpkhPre⟩)
        (gen_valid_bech32_vector
          ⟨ricL, 0, 20, ⟨some false, some mainC, none, some true⟩, .BECH32M, p2wpkhPre⟩
          (List.replicate 20 1)).1 =
      some (Bech32Template.witver
          ⟨ricL, 0, 20, ⟨some false, some mainC, none, some true⟩, .BECH32M, p2wpkhPre⟩,
        List.replicate 20 1) :=
  (c3_bech32_roundtrip.1 _ (by simp [bech32_templates]) _ (by simp)
    (by intro b hb; rw [List.eq_of_mem_replicate hb]; omega)).1

/-- C4 (amended): `is_valid` classifies a length-67 candidate as valid exactly
when it starts with `prv`, and delegates to the bech32 decoder only for
candidates whose length is not 67 and which miss the 46- and 50-length
layouts; a length-67 string that does not start with `prv` is rejected even
when it is a valid bech32 address of one of the three known human-readable
parts. -/
theorem c4_oracle_branch_structure :
    (∀ v : List Char, v.length = 67 → (is_valid v = true ↔ v.take 3 = ['p','r','v'])) ∧
    (∀ v : List Char, v.length ≠ 67 →
      ¬(v.length = 46 ∧ v.take 4 = ['a','9','1','4'] ∧ v.drop 44 = ['8','7']) →
      ¬(v.length = 50 ∧ v.take 6 = ['7','6','a','9','1','4'] ∧ v.drop 46 = ['8','8','a','c']) →
      is_valid v = is_valid_bech32 v) ∧
    (∀ v : List Char, v.length = 67 → v.take 3 ≠ ['p','r','v'] → is_valid v = false) := by
  refine ⟨?_, ?_, ?_⟩
  · intro v h
    rw [is_valid, if_pos h]
    simp
  · intro v h67 h46 h50
    rw [is_valid, if_neg h67, if_neg h46, if_neg h50]
  · intro v h67 hp
    rw [is_valid, if_pos h67]
    simp [hp]

/-- Witness for C4's amended statement: a length-67 string of `z`s is
rejected. -/
theorem c4_witness : is_valid (List.replicate 67 'z') = false :=
  c4_oracle_branch_structure.2.2 _ (by decide) (by decide)

/-- Counterexample for C4 as stated: a length-67 valid bech32 `ric` address
(version 1, 35-byte zero program) does not start with `prv`, is accepted by
the bech32 delegate, and yet `is_valid` rejects it — the length-67 branch
returns without ever consulting the bech32 decoder. -/
theorem c4_counterexample :
    (bech32_encode .BECH32M ricL
        (1 :: (convertbits (List.replicate 35 0) 8 5 true).getD [])).length = 67 ∧
    (bech32_encode .BECH32M ricL
        (1 :: (convertbits (List.replicate 35 0) 8 5 true).getD [])).take 3 ≠
      ['p','r','v'] ∧
    is_valid_bech32 (bech32_encode .BECH32M ricL
        (1 :: (convertbits (List.replicate 35 0) 8 5 true).getD [])) = true ∧
    is_valid (bech32_encode .BECH32M ricL
        (1 :: (convertbits (List.replicate 35 0) 8 5 true).getD [])) = false := by
  refine ⟨by decide, by decide, by decide, by decide⟩

/-- C5 (amended): with all three corruption axes off and no line corruption,
`gen_invalid_legacy_vector` produces
`template.prefix ++ hex(output_prefix) ++ payload_hex ++ hex(output_prefix)` —
the uncorrupted trailer spells the template's output script head
(`template[4]`), not its output suffix. -/
theorem c5_uncorrupted_layout :
    ∀ t ∈ templates, ∀ (expoDraw : Nat) (gPre gPay gSuf : Nat → Nat),
      gen_invalid_legacy_vector t false false false expoDraw gPre gPay gSuf none =
        t.tplPre ++ bytesHex t.outPre ++
          bytesHex (rand_bytes gPay 0 t.payloadSize) ++ bytesHex t.outPre := by
  intro t ht e g1 g2 g3
  rw [gen_invalid_legacy_vector]
  simp [invalidPayloadSize]

/-- Witness for C5's amended statement at the first legacy template. -/
theorem c5_witness :
    gen_invalid_legacy_vector
        ⟨[], 20, [], ⟨some false, some mainC, none, none⟩, pubkeyPre, pubkeySuf⟩
        false false false 0 (fun _ => 0) (fun _ => 0) (fun _ => 0) none =
      [] ++ bytesHex pubkeyPre ++ bytesHex (rand_bytes (fun _ => 0) 0 20) ++
        bytesHex pubkeyPre :=
  c5_uncorrupted_layout _ (by simp [templates]) 0 _ _ _

/-- Counterexample for C5 as stated: at the first legacy template with no
corruption the output is not
`prefix ++ hex(output_prefix) ++ payload_hex ++ hex(output_suffix)` — the
trailer is `76a914`, not `88ac`. -/
theorem c5_counterexample :
    gen_invalid_legacy_vector
        ⟨[], 20, [], ⟨some false, some mainC, none, none⟩, pubkeyPre, pubkeySuf⟩
        false false false 0 (fun _ => 0) (fun _ => 0) (fun _ => 0) none ≠
      [] ++ bytesHex pubkeyPre ++ bytesHex (rand_bytes (fun _ => 0) 0 20) ++
        bytesHex pubkeySuf := by
  decide

/-- C6: in `gen_invalid_bech32_vector`'s checksum-forcing branch (flag set,
data branch taken), when the witness program size is 2 or 4 modulo 5 the
last 5-bit symbol gets its low bit set — which always flips it, since the
padded last symbol is even, so the perturbed symbol is the original plus one
and the data list genuinely changes; otherwise an extra zero symbol is
appended. -/
theorem c6_checksum_forcing_mutation :
    ∀ t ∈ bech32_ng_templates, t.invalidBech32 = true →
    ∀ witprog : List Nat, witprog.length = t.witprogSize →
      ((t.witprogSize % 5 = 2 ∨ t.witprogSize % 5 = 4) →
        invalidBech32Data t witprog =
          (t.witver :: (convertbits witprog 8 5 true).getD []).dropLast ++
            [(t.witver :: (convertbits witprog 8 5 true).getD []).getLastD 0 ||| 1] ∧
        (invalidBech32Data t witprog).getLastD 0 =
          (t.witver :: (convertbits witprog 8 5 true).getD []).getLastD 0 + 1 ∧
        invalidBech32Data t witprog ≠
          t.witver :: (convertbits witprog 8 5 true).getD []) ∧
      (¬(t.witprogSize % 5 = 2 ∨ t.witprogSize % 5 = 4) →
        invalidBech32Data t witprog =
          (t.witver :: (convertbits witprog 8 5 true).getD []) ++ [0]) := by
  intro t ht hflag witprog hlen
  constructor
  · intro hrem
    have hconvr : witprog.length % 5 = 2 ∨ witprog.length % 5 = 4 := by
      rw [hlen]
      exact hrem
    obtain ⟨hne, hev⟩ := conv85_getLastD_even witprog hconvr
    have hdata_eq : invalidBech32Data t witprog =
        (t.witver :: (convertbits witprog 8 5 true).getD []).dropLast ++
          [(t.witver :: (convertbits witprog 8 5 true).getD []).getLastD 0 ||| 1] := by
      rw [invalidBech32Data, if_pos hflag, if_pos hrem]
    have hlast : (t.witver :: (convertbits witprog 8 5 true).getD []).getLastD 0 =
        ((convertbits witprog 8 5 true).getD []).getLastD 0 := by
      rw [List.getLastD_cons]
      exact getLastD_of_ne_nil _ hne _ _
    have hlor : (t.witver :: (convertbits witprog 8 5 true).getD []).getLastD 0 ||| 1 =
        (t.witver :: (convertbits witprog 8 5 true).getD []).getLastD 0 + 1 := by
      rw [hlast]
      exact lor_one_of_even _ hev
    refine ⟨hdata_eq, ?_, ?_⟩
    · rw [hdata_eq, hlor]
      simp
    · rw [hdata_eq]
      intro hcon
      have h1 := congrArg (List.getLastD · 0) hcon
      simp only [List.getLastD_concat] at h1
      rw [hlor] at h1
      have h2 : (t.witver :: (convertbits witprog 8 5 true).getD []).getLastD 0 =
          ((t.witver :: (convertbits witprog 8 5 true).getD []).dropLast ++
            [(t.witver :: (convertbits witprog 8 5 true).getD []).getLastD 0 ||| 1]).getLastD 0 := by
        rw [hcon]
      omega
  · intro hrem
    rw [invalidBech32Data, if_pos hflag, if_neg hrem]

/-- Witness for C6 at the flagged `rric` template (program size 32, remainder
2): the perturbed data differs from the unperturbed data. -/
theorem c6_witness :
    invalidBech32Data ⟨rricL, 0, 32, .BECH32M, true, false, false⟩ (List.replicate 32 0) ≠
      0 :: (convertbits (List.replicate 32 0) 8 5 true).getD [] :=
  ((c6_checksum_forcing_mutation _ (by simp [bech32_ng_templates]) rfl _ (by simp)).1
    (by decide)).2.2

/-- C7 (amended): the line-corruption step either appends exactly one
character, or overwrites one character preserving the length — for every
overwrite position strictly inside the string; the inclusive draw
`n = len(val)` instead appends, growing the string by one. -/
theorem c7_line_corruption_shape :
    ∀ (t : LegacyTemplate) (cp rs cs : Bool) (e : Nat) (g1 g2 g3 : Nat → Nat)
      (c : Char) (n : Nat),
      gen_invalid_legacy_vector t cp rs cs e g1 g2 g3 (some (.addEnd c)) =
        gen_invalid_legacy_vector t cp rs cs e g1 g2 g3 none ++ [c] ∧
      (n < (gen_invalid_legacy_vector t cp rs cs e g1 g2 g3 none).length →
        (gen_invalid_legacy_vector t cp rs cs e g1 g2 g3 (some (.replaceAt n c))).length =
          (gen_invalid_legacy_vector t cp rs cs e g1 g2 g3 none).length) ∧
      gen_invalid_legacy_vector t cp rs cs e g1 g2 g3
          (some (.replaceAt (gen_invalid_legacy_vector t cp rs cs e g1 g2 g3 none).length c)) =
        gen_invalid_legacy_vector t cp rs cs e g1 g2 g3 none ++ [c] := by
  intro t cp rs cs e g1 g2 g3 c n
  refine ⟨rfl, ?_, ?_⟩
  · intro hn
    set val := gen_invalid_legacy_vector t cp rs cs e g1 g2 g3 none with hval
    show (val.take n ++ c :: val.drop (n + 1)).length = val.length
    simp only [List.length_append, List.length_cons, List.length_take, List.length_drop]
    omega
  · set val := gen_invalid_legacy_vector t cp rs cs e g1 g2 g3 none with hval
    show val.take val.length ++ c :: val.drop (val.length + 1) = val ++ [c]
    rw [List.take_length, List.drop_eq_nil_of_le (by omega)]

/-- Witness for C7's amended statement: overwriting inside the string keeps
the length. -/
theorem c7_witness :
    (gen_invalid_legacy_vector
        ⟨[], 20, [], ⟨some false, some mainC, none, none⟩, pubkeyPre, pubkeySuf⟩
        false false false 0 (fun _ => 0) (fun _ => 0) (fun _ => 0)
        (some (.replaceAt 0 'f'))).length =
      (gen_invalid_legacy_vector
        ⟨[], 20, [], ⟨some false, some mainC, none, none⟩, pubkeyPre, pubkeySuf⟩
        false false false 0 (fun _ => 0) (fun _ => 0) (fun _ => 0) none).length :=
  (c7_line_corruption_shape _ false false false 0 _ _ _ 'f' 0).2.1 (by decide)

/-- Counterexample for C7 as stated: at the inclusive boundary position
`n = len(val)` (which `randint(0, len(val))` can draw), the "overwrite"
branch appends instead, so the output is one character longer than the
input. -/
theorem c7_counterexample :
    (gen_invalid_legacy_vector
        ⟨[], 20, [], ⟨some false, some mainC, none, none⟩, pubkeyPre, pubkeySuf⟩
        false false false 0 (fun _ => 0) (fun _ => 0) (fun _ => 0)
        (some (.replaceAt 52 'f'))).length =
      (gen_invalid_legacy_vector
        ⟨[], 20, [], ⟨some false, some mainC, none, none⟩, pubkeyPre, pubkeySuf⟩
        false false false 0 (fun _ => 0) (fun _ => 0) (fun _ => 0) none).length + 1 := by
  decide

end Freycoin
